import Mathlib

set_option maxRecDepth 100000

/- Verification of the response-normalization pipeline of
   src/netlify_function.js (the `exports.handler` function, lines 182-263).
   JavaScript strings are modelled as lists of characters, JSON values by the
   inductive type `Json` below, and `JSON.parse` by a fuel-based recursive
   descent parser (`Json.parse`).  Platform simplifications, each noted at the
   definition it concerns: JSON numbers are modelled as integers, and the
   case-conversion / whitespace sets are the ASCII ones. -/

/-- Characters of a JavaScript string, modelled as a list of `Char`. -/
abbrev Txt := List Char

/-- The opening-brace character searched for at line 189 of the source. -/
def braceL : Char := Char.ofNat 123

/-- The closing-brace character searched for at line 190 of the source. -/
def braceR : Char := Char.ofNat 125

/-- ASCII whitespace characters, modelling the `\s` class and `String.trim`
of JavaScript (space, tab, LF, CR, VT, FF; Unicode spaces are not modelled). -/
def wsChars : List Char := [' ', Char.ofNat 9, Char.ofNat 10, Char.ofNat 13, Char.ofNat 11, Char.ofNat 12]

def isWsChar (c : Char) : Bool := wsChars.contains c

/-- The whitespace characters of the JSON grammar (RFC 8259), skipped by
`JSON.parse` between tokens. -/
def jsonWsChars : List Char := [' ', Char.ofNat 9, Char.ofNat 10, Char.ofNat 13]

def isJsonWs (c : Char) : Bool := jsonWsChars.contains c

/-- Upper-case / lower-case ASCII letter pairs. -/
def lowPairs : List (Char × Char) :=
  [('A', 'a'), ('B', 'b'), ('C', 'c'), ('D', 'd'), ('E', 'e'), ('F', 'f'),
   ('G', 'g'), ('H', 'h'), ('I', 'i'), ('J', 'j'), ('K', 'k'), ('L', 'l'),
   ('M', 'm'), ('N', 'n'), ('O', 'o'), ('P', 'p'), ('Q', 'q'), ('R', 'r'),
   ('S', 's'), ('T', 't'), ('U', 'u'), ('V', 'v'), ('W', 'w'), ('X', 'x'),
   ('Y', 'y'), ('Z', 'z')]

/-- `String.prototype.toLowerCase`, modelled on ASCII letters (the only
characters the source's data ever needs; Unicode case mapping not modelled). -/
def lowChar (c : Char) : Char :=
  ((lowPairs.find? (fun p => p.1 == c)).map (fun p => p.2)).getD c

/-- `s.toLowerCase()` on a JavaScript string. -/
def lowerS (l : Txt) : Txt := l.map lowChar

/-- `s.trim()` on a JavaScript string: strip whitespace from both ends. -/
def trimS (l : Txt) : Txt :=
  ((l.dropWhile isWsChar).reverse.dropWhile isWsChar).reverse

mutual
/-- JSON values as produced by `JSON.parse`.  Numbers are modelled as
integers (the source's data only ever carries integer `id`s).  Arrays and
objects carry their own spine types `JArr`/`JObj` so that all recursion over
values is plain structural recursion; `JArr.toList`/`JArr.ofList` mediate
with ordinary lists. -/
inductive Json where
  | null
  | bool (b : Bool)
  | num (n : Int)
  | str (s : Txt)
  | arr (elems : JArr)
  | obj (fields : JObj)
inductive JArr where
  | nil
  | cons (hd : Json) (tl : JArr)
inductive JObj where
  | nil
  | cons (key : Txt) (val : Json) (tl : JObj)
end

def JArr.toList : JArr → List Json
  | .nil => []
  | .cons h t => h :: t.toList

def JArr.ofList : List Json → JArr
  | [] => .nil
  | h :: t => .cons h (JArr.ofList t)

def JObj.ofList : List (Txt × Json) → JObj
  | [] => .nil
  | (k, v) :: t => .cons k v (JObj.ofList t)

/-- Array value from an ordinary list. -/
def jarr (l : List Json) : Json := .arr (JArr.ofList l)

/-- Object value from an ordinary association list. -/
def jobj (fs : List (Txt × Json)) : Json := .obj (JObj.ofList fs)

/-- JavaScript truthiness of a JSON value (`NaN` does not arise: numbers are
integers). -/
def jsTruthy : Json → Bool
  | .null => false
  | .bool b => b
  | .num n => n != 0
  | .str s => !s.isEmpty
  | .arr _ => true
  | .obj _ => true

/-- Property access `v[k]` on a JSON value: on an object the last binding of
the key wins (as for duplicate keys in `JSON.parse`); on any non-object the
result models JavaScript's `undefined`/absent, returned here as `Json.null`
(the two are interchangeable everywhere the source inspects such a field:
both are falsy and both trigger the same defaulting branches).  Access on
`Json.null` itself would throw in JavaScript; the one reachable place where
the source dereferences a possibly-null base (line 209) is modelled
explicitly in `normalizeParsed`. -/
def jObjGet : JObj → Txt → Json → Json
  | .nil, _, acc => acc
  | .cons k v t, key, acc => jObjGet t key (if k = key then v else acc)

def jsGet : Json → Txt → Json
  | .obj fs, k => jObjGet fs k Json.null
  | _, _ => Json.null

def isArrJ : Json → Bool
  | .arr _ => true
  | _ => false

mutual
/-- The JavaScript `String(v)` coercion applied by the source at lines
223, 225, 228, 231, 237, 243 and 244: identity on strings, decimal notation
on numbers, comma-join on arrays (with `null` elements rendered empty, as
`Array.prototype.join` does), `"[object Object]"` on objects. -/
def jsToString : Json → Txt
  | .null => "null".data
  | .bool b => if b then "true".data else "false".data
  | .num n => (toString n).data
  | .str s => s
  | .obj _ => "[object Object]".data
  | .arr xs => arrJoin xs
/-- `Array.prototype.join(',')`, with `null` elements rendered empty. -/
def arrJoin : JArr → Txt
  | .nil => []
  | .cons .null .nil => []
  | .cons h .nil => jsToString h
  | .cons .null t => ",".data ++ arrJoin t
  | .cons h t => jsToString h ++ ",".data ++ arrJoin t
end

-- ── Field-name and tag constants used by the source ──

def kQuestions : Txt := "questions".data
def kType : Txt := "type".data
def kQuestion : Txt := "question".data
def kAnswer : Txt := "answer".data
def kOptions : Txt := "options".data
def kExplanation : Txt := "explanation".data
def kKeywords : Txt := "keywords".data
def objectiveTag : Txt := "objective".data
def subjectiveTag : Txt := "subjective".data
def theoryTag : Txt := "theory".data

/-- The placeholder option labels of source line 224. -/
def placeholderOpts : List Txt :=
  ["Option A".data, "Option B".data, "Option C".data, "Option D".data]

/-- The default explanation text of source line 231. -/
def defaultExplanation : Txt := "Refer to your study materials.".data

/-- The strict string comparison `q.type === tag` of source lines 221/233. -/
def typeTagIs (q : Json) (tag : Txt) : Bool :=
  match jsGet q kType with
  | .str t => t = tag
  | _ => false

/-- Source lines 222-224: coerce `q.options` - keep (up to) the first four,
each coerced by `String(...)`, when `q.options` is an array of length at
least two, otherwise substitute the four placeholder labels. -/
def coerceOptions (q : Json) : List Txt :=
  match jsGet q kOptions with
  | .arr xs =>
    if 2 ≤ xs.toList.length then (xs.toList.take 4).map jsToString
    else placeholderOpts
  | _ => placeholderOpts

/-- Source line 244: coerce `q.keywords` - `map(String)` then `slice(0,10)`
when an array, else the empty array. -/
def coerceKeywords (q : Json) : List Txt :=
  match jsGet q kKeywords with
  | .arr xs => (xs.toList.map jsToString).take 10
  | _ => []

/-- Source line 231: `String(q.explanation || 'Refer to your study
materials.').trim()`. -/
def coerceExplanation (q : Json) : Txt :=
  trimS (jsToString
    (if jsTruthy (jsGet q kExplanation) then jsGet q kExplanation
     else Json.str defaultExplanation))

/-- An emitted question record (the object literals of source lines
226-232, 234-238 and 240-245). -/
inductive QRec where
  | objective (id : Nat) (question : Txt) (options : List Txt) (answer : Txt)
      (explanation : Txt)
  | subjective (id : Nat) (question : Txt) (answer : Txt)
  | theory (id : Nat) (question : Txt) (answer : Txt) (keywords : List Txt)
deriving DecidableEq

def QRec.qid : QRec → Nat
  | .objective i _ _ _ _ => i
  | .subjective i _ _ => i
  | .theory i _ _ _ => i

def QRec.qquestion : QRec → Txt
  | .objective _ q _ _ _ => q
  | .subjective _ q _ => q
  | .theory _ q _ _ => q

def QRec.qanswer : QRec → Txt
  | .objective _ _ _ a _ => a
  | .subjective _ _ a => a
  | .theory _ _ a _ => a

def QRec.qoptions : QRec → List Txt
  | .objective _ _ o _ _ => o
  | _ => []

def QRec.qkeywords : QRec → List Txt
  | .theory _ _ _ k => k
  | _ => []

def QRec.isObjective : QRec → Bool
  | .objective _ _ _ _ _ => true
  | _ => false

def QRec.isTheory : QRec → Bool
  | .theory _ _ _ _ => true
  | _ => false

/-- Source line 219, the retention filter:
`q && q.type && q.question && q.answer`. -/
def keepQ (q : Json) : Bool :=
  jsTruthy q && jsTruthy (jsGet q kType) && jsTruthy (jsGet q kQuestion) &&
    jsTruthy (jsGet q kAnswer)

/-- Source lines 220-247, the body of the `.map((q, i) => ...)` callback:
classify the element by its `type` tag and build the record with `id = i+1`. -/
def normalizeElement (i : Nat) (q : Json) : QRec :=
  if typeTagIs q objectiveTag then
    let opts := coerceOptions q
    let rawAns := jsToString (jsGet q kAnswer)
    QRec.objective (i + 1) (trimS (jsToString (jsGet q kQuestion))) opts
      (if rawAns ∈ opts then rawAns else opts.headD []) (coerceExplanation q)
  else if typeTagIs q subjectiveTag then
    QRec.subjective (i + 1) (trimS (jsToString (jsGet q kQuestion)))
      (lowerS (trimS (jsToString (jsGet q kAnswer))))
  else
    QRec.theory (i + 1) (trimS (jsToString (jsGet q kQuestion)))
      (trimS (jsToString (jsGet q kAnswer))) (coerceKeywords q)

/-- The `.map((q, i) => ...)` of source line 220 applied to the retained
elements: the callback index `i` is the position in the filtered list. -/
def assignIds : Nat → List Json → List QRec
  | _, [] => []
  | i, q :: qs => normalizeElement i q :: assignIds (i + 1) qs

/-- The success payload `{ questions, total: questions.length }` of source
line 262. -/
structure NormResult where
  questions : List QRec
  total : Nat
deriving DecidableEq

/-- The failure signals of the normalization stage (source lines 198-207,
209-215, 249-257).  `nullDeref` models the uncaught JavaScript `TypeError`
thrown by `parsed.questions` at line 209 when the parsed value is `null`. -/
inductive NormError where
  | malformedCompletion
  | missingQuestionsField
  | insufficientQuestions (count : Nat)
  | nullDeref
deriving DecidableEq

/-- Source lines 209-263 (after `JSON.parse` succeeded): check the
`questions` field, filter, map, and apply the viability threshold of 5. -/
def normalizeParsed (parsed : Json) : Except NormError NormResult :=
  match parsed with
  | .null => .error .nullDeref
  | _ =>
    match jsGet parsed kQuestions with
    | .arr elems =>
      let questions := assignIds 0 (elems.toList.filter keepQ)
      if questions.length < 5 then .error (.insufficientQuestions questions.length)
      else .ok ⟨questions, questions.length⟩
    | _ => .error .missingQuestionsField

-- ── The string-cleaning stage (source lines 182-193) ──

def dropWhileWs (l : Txt) : Txt := l.dropWhile isWsChar

/-- Three backticks, the markdown fence marker. -/
def fence3 : Txt := [Char.ofNat 96, Char.ofNat 96, Char.ofNat 96]

/-- Source line 183: `.replace(/^```json\s*/i, '')` - strip a leading fence
tagged `json` (case-insensitively) together with following whitespace. -/
def stripJsonFence (l : Txt) : Txt :=
  if l.take 3 = fence3 ∧ lowerS ((l.drop 3).take 4) = "json".data
  then dropWhileWs (l.drop 7) else l

/-- Source line 184: `.replace(/^```\s*/i, '')`. -/
def stripFence (l : Txt) : Txt :=
  if l.take 3 = fence3 then dropWhileWs (l.drop 3) else l

/-- Source line 185: `.replace(/\s*```\s*$/i, '')` - remove a trailing fence
together with the whitespace around it; if no trailing fence is present the
string is left unchanged. -/
def stripTrailFence (l : Txt) : Txt :=
  let r := dropWhileWs l.reverse
  if r.take 3 = fence3 then (dropWhileWs (r.drop 3)).reverse else l

/-- Source lines 182-186: fence stripping followed by `.trim()`. -/
def cleanFences (raw : Txt) : Txt :=
  trimS (stripTrailFence (stripFence (stripJsonFence raw)))

/-- JavaScript `String.prototype.indexOf` for a single character:
the index of the first occurrence, or `-1`. -/
def indexOfC (c : Char) : Txt → Int
  | [] => -1
  | x :: xs =>
    if x = c then 0
    else (let r := indexOfC c xs; if r < 0 then -1 else r + 1)

/-- JavaScript `String.prototype.lastIndexOf` for a single character. -/
def lastIndexOfC (c : Char) (l : Txt) : Int :=
  let r := indexOfC c l.reverse
  if r < 0 then -1 else (l.length : Int) - 1 - r

/-- The inclusive brace-to-brace slice
`cleaned.substring(jsonStart, jsonEnd + 1)` of source line 192. -/
def braceSlice (cleaned : Txt) : Txt :=
  (cleaned.take ((lastIndexOfC braceR cleaned).toNat + 1)).drop
    (indexOfC braceL cleaned).toNat

-- ── JSON.parse, as a fuel-based recursive-descent parser ──

def dropWs (s : Txt) : Txt := s.dropWhile isJsonWs

def isDigitC (c : Char) : Bool := 48 ≤ c.toNat && c.toNat ≤ 57

def digitsToNat (l : Txt) : Nat := l.foldl (fun a c => 10 * a + (c.toNat - 48)) 0

def hexVal (c : Char) : Option Nat :=
  let n := c.toNat
  if 48 ≤ n ∧ n ≤ 57 then some (n - 48)
  else if 97 ≤ n ∧ n ≤ 102 then some (n - 87)
  else if 65 ≤ n ∧ n ≤ 70 then some (n - 55)
  else none

/-- The single-character string escapes of JSON. -/
def escChar (c : Char) : Option Char :=
  let n := c.toNat
  if n = 34 ∨ n = 92 ∨ n = 47 then some c
  else if n = 98 then some (Char.ofNat 8)
  else if n = 102 then some (Char.ofNat 12)
  else if n = 110 then some (Char.ofNat 10)
  else if n = 114 then some (Char.ofNat 13)
  else if n = 116 then some (Char.ofNat 9)
  else none

/-- Parse the body of a JSON string after its opening quote; returns the
decoded characters and the remaining input after the closing quote.  Raw
control characters and unknown escapes are rejected, as `JSON.parse` does. -/
def parseStringBody : Txt → Option (Txt × Txt)
  | [] => none
  | c :: rest =>
    if c.toNat = 34 then some ([], rest)
    else if c.toNat = 92 then
      match rest with
      | [] => none
      | e :: r2 =>
        if e.toNat = 117 then
          match r2 with
          | h1 :: h2 :: h3 :: h4 :: r3 =>
            match hexVal h1, hexVal h2, hexVal h3, hexVal h4 with
            | some a, some b, some c4, some d =>
              match parseStringBody r3 with
              | some (s, r4) =>
                some (Char.ofNat (4096 * a + 256 * b + 16 * c4 + d) :: s, r4)
              | none => none
            | _, _, _, _ => none
          | _ => none
        else
          match escChar e with
          | some ec =>
            match parseStringBody r2 with
            | some (s, r3) => some (ec :: s, r3)
            | none => none
          | none => none
    else if c.toNat < 32 then none
    else
      match parseStringBody rest with
      | some (s, r2) => some (c :: s, r2)
      | none => none

/-- What a recursive step of the parser is asked to produce: a value, the
item list of an array (after `[`), or the field list of an object
(after a `{`-like opening). -/
inductive JMode where
  | value
  | items
  | fields

inductive JOut where
  | val (j : Json)
  | items (l : List Json)
  | fields (l : List (Txt × Json))

/-- One recursive-descent parser for JSON values; `fuel` bounds the depth of
mutual recursion and is chosen large enough by `Json.parse`.  In `items` and
`fields` mode the input arrives with leading whitespace already skipped.
JSON numbers are parsed as (optionally negated) integers; fractional and
exponent notation is not modelled. -/
def parseP : Nat → JMode → Txt → Option (JOut × Txt)
  | 0, _, _ => none
  | fu + 1, .value, s =>
    match dropWs s with
    | [] => none
    | c :: rest =>
      if c.toNat = 123 then
        match parseP fu .fields (dropWs rest) with
        | some (.fields fs, r) => some (.val (jobj fs), r)
        | _ => none
      else if c.toNat = 91 then
        match parseP fu .items (dropWs rest) with
        | some (.items js, r) => some (.val (jarr js), r)
        | _ => none
      else if c.toNat = 34 then
        match parseStringBody rest with
        | some (s2, r) => some (.val (Json.str s2), r)
        | none => none
      else if c.toNat = 116 then
        match rest with
        | c1 :: c2 :: c3 :: r =>
          if c1.toNat = 114 ∧ c2.toNat = 117 ∧ c3.toNat = 101
          then some (.val (Json.bool true), r) else none
        | _ => none
      else if c.toNat = 102 then
        match rest with
        | c1 :: c2 :: c3 :: c4 :: r =>
          if c1.toNat = 97 ∧ c2.toNat = 108 ∧ c3.toNat = 115 ∧ c4.toNat = 101
          then some (.val (Json.bool false), r) else none
        | _ => none
      else if c.toNat = 110 then
        match rest with
        | c1 :: c2 :: c3 :: r =>
          if c1.toNat = 117 ∧ c2.toNat = 108 ∧ c3.toNat = 108
          then some (.val Json.null, r) else none
        | _ => none
      else if c.toNat = 45 then
        let ds := rest.takeWhile isDigitC
        if ds.isEmpty then none
        else some (.val (Json.num (-(digitsToNat ds : Int))), rest.drop ds.length)
      else if isDigitC c then
        let ds := (c :: rest).takeWhile isDigitC
        some (.val (Json.num (digitsToNat ds)), (c :: rest).drop ds.length)
      else none
  | fu + 1, .items, s =>
    match s with
    | [] => none
    | c :: rest =>
      if c.toNat = 93 then some (.items [], rest)
      else
        match parseP fu .value s with
        | some (.val j, r) =>
          match dropWs r with
          | [] => none
          | c2 :: r2 =>
            if c2.toNat = 44 then
              match parseP fu .items (dropWs r2) with
              | some (.items js, r3) => some (.items (j :: js), r3)
              | _ => none
            else if c2.toNat = 93 then some (.items [j], r2)
            else none
        | _ => none
  | fu + 1, .fields, s =>
    match s with
    | [] => none
    | c :: rest =>
      if c.toNat = 125 then some (.fields [], rest)
      else if c.toNat = 34 then
        match parseStringBody rest with
        | some (k, r) =>
          match dropWs r with
          | [] => none
          | c2 :: r2 =>
            if c2.toNat = 58 then
              match parseP fu .value r2 with
              | some (.val j, r3) =>
                match dropWs r3 with
                | [] => none
                | c3 :: r4 =>
                  if c3.toNat = 44 then
                    match parseP fu .fields (dropWs r4) with
                    | some (.fields fs, r5) => some (.fields ((k, j) :: fs), r5)
                    | _ => none
                  else if c3.toNat = 125 then some (.fields [(k, j)], r4)
                  else none
              | _ => none
            else none
        | none => none
      else none

/-- `JSON.parse`: parse one JSON value and require that only whitespace
follows it (trailing garbage makes the whole parse fail, as in JavaScript). -/
def Json.parse (s : Txt) : Option Json :=
  match parseP (2 * s.length + 4) .value s with
  | some (.val j, rest) => if (dropWs rest).isEmpty then some j else none
  | _ => none

/-- Source lines 195-257: `JSON.parse` on an already cleaned-and-sliced text
followed by the validation stage. -/
def parsePhase (c : Txt) : Except NormError NormResult :=
  match Json.parse c with
  | none => .error .malformedCompletion
  | some parsed => normalizeParsed parsed

/-- Source lines 182-263: the whole response-normalization pipeline, from the
raw completion text to the success payload or error signal.  Note that the
brace-to-brace slicing of lines 188-193 happens before the one and only
`JSON.parse` attempt, and only when the first `{` sits at a strictly
positive index. -/
def runNormalizer (raw : Txt) : Except NormError NormResult :=
  let cleaned := cleanFences raw
  let jsonStart := indexOfC braceL cleaned
  let jsonEnd := lastIndexOfC braceR cleaned
  let cleaned2 :=
    if 0 < jsonStart ∧ jsonStart < jsonEnd then
      (cleaned.take (jsonEnd.toNat + 1)).drop jsonStart.toNat
    else cleaned
  parsePhase cleaned2

def isOkR : Except NormError NormResult → Bool
  | .ok _ => true
  | .error _ => false

def kId : Txt := "id".data

/-- The JSON value of an emitted record, with the fields of the object
literals at source lines 226-232, 234-238 and 240-245. -/
def recordToJson : QRec → Json
  | .objective i q o a e =>
    jobj [(kId, Json.num i), (kType, Json.str objectiveTag),
          (kQuestion, Json.str q), (kOptions, jarr (o.map Json.str)),
          (kAnswer, Json.str a), (kExplanation, Json.str e)]
  | .subjective i q a =>
    jobj [(kId, Json.num i), (kType, Json.str subjectiveTag),
          (kQuestion, Json.str q), (kAnswer, Json.str a)]
  | .theory i q a kw =>
    jobj [(kId, Json.num i), (kType, Json.str theoryTag),
          (kQuestion, Json.str q), (kAnswer, Json.str a),
          (kKeywords, jarr (kw.map Json.str))]

/-- The value-level rendering of `JSON.stringify` of a success payload,
re-read by `JSON.parse`: an object whose `questions` field holds the emitted
records (a stringify/parse round trip on these plain values is the
identity, so it is modelled as such). -/
def reserialize (r : NormResult) : Json :=
  jobj [(kQuestions, jarr (r.questions.map recordToJson))]

def fenceOpen : Txt := "```json\n".data

def fenceClose : Txt := "\n```".data

/-- The markdown wrapping considered by the spec: leading prose, then a
fenced block tagged `json` holding the payload. -/
def wrapFence (prose j : Txt) : Txt :=
  prose ++ fenceOpen ++ j ++ fenceClose

-- ── Shared facts about the normalization stage ──

theorem assignIds_length (l : List Json) (n : Nat) :
    (assignIds n l).length = l.length := by
  induction l generalizing n with
  | nil => rfl
  | cons q qs ih => simp [assignIds, ih]

theorem qid_normalizeElement (i : Nat) (q : Json) :
    (normalizeElement i q).qid = i + 1 := by
  unfold normalizeElement
  split_ifs <;> rfl

theorem assignIds_map_qid (l : List Json) (n : Nat) :
    (assignIds n l).map QRec.qid = List.range' (n + 1) l.length := by
  induction l generalizing n with
  | nil => rfl
  | cons q qs ih => simp [assignIds, List.range', qid_normalizeElement, ih]
theorem mem_assignIds_of_mem {q : Json} {l : List Json} (h : q ∈ l) (n : Nat) :
    ∃ i, normalizeElement i q ∈ assignIds n l := by
  induction l generalizing n with
  | nil => cases h
  | cons x xs ih =>
    rcases List.mem_cons.mp h with h | h
    · exact ⟨n, h ▸ List.mem_cons_self _ _⟩
    · obtain ⟨i, hi⟩ := ih h (n + 1)
      exact ⟨i, List.mem_cons_of_mem _ hi⟩

theorem of_mem_assignIds {rec : QRec} {l : List Json} {n : Nat}
    (h : rec ∈ assignIds n l) : ∃ i q, q ∈ l ∧ rec = normalizeElement i q := by
  induction l generalizing n with
  | nil => cases h
  | cons x xs ih =>
    rcases List.mem_cons.mp h with h | h
    · exact ⟨n, x, List.mem_cons_self _ _, h⟩
    · obtain ⟨i, q, hq, hr⟩ := ih h
      exact ⟨i, q, List.mem_cons_of_mem _ hq, hr⟩

/-- The unfolding of `normalizeParsed` on a non-null parsed value. -/
theorem normalizeParsed_eq (p : Json) (hp : p ≠ Json.null) :
    normalizeParsed p =
      (match jsGet p kQuestions with
       | .arr elems =>
         (let questions := assignIds 0 (elems.toList.filter keepQ)
          if questions.length < 5 then
            .error (.insufficientQuestions questions.length)
          else .ok ⟨questions, questions.length⟩)
       | _ => .error .missingQuestionsField) := by
  cases p <;> first | exact absurd rfl hp | rfl

/-- Inversion of a successful run of the validation stage. -/
theorem normalizeParsed_ok_inv {p : Json} {r : NormResult}
    (h : normalizeParsed p = .ok r) :
    ∃ elems : JArr, jsGet p kQuestions = Json.arr elems ∧
      r.questions = assignIds 0 (elems.toList.filter keepQ) ∧
      r.total = r.questions.length ∧ 5 ≤ r.questions.length := by
  have hp : p ≠ Json.null := by rintro rfl; simp [normalizeParsed] at h
  rw [normalizeParsed_eq p hp] at h
  rcases hq : jsGet p kQuestions with _ | _ | _ | _ | elems | _ <;> rw [hq] at h <;>
    try cases h
  refine ⟨elems, rfl, ?_⟩
  by_cases h5 : (assignIds 0 (elems.toList.filter keepQ)).length < 5
  · simp [h5] at h
  · simp [h5] at h
    refine ⟨by simp [← h], by simp [← h], ?_⟩
    rw [← h]
    simpa using Nat.le_of_not_lt h5

-- ── Concrete inputs used by the witnesses ──

/-- A well-shaped theory-typed element. -/
def mkTheoryEl (q a : Txt) : Json :=
  jobj [(kType, Json.str theoryTag), (kQuestion, Json.str q), (kAnswer, Json.str a)]

def w3 : Json := jobj [(kQuestions, jarr
  [mkTheoryEl ("a1".data) ("b1".data), mkTheoryEl ("a2".data) ("b2".data),
   mkTheoryEl ("a3".data) ("b3".data), mkTheoryEl ("a4".data) ("b4".data),
   mkTheoryEl ("a5".data) ("b5".data)])]

def w3res : NormResult :=
  ⟨[QRec.theory 1 ("a1".data) ("b1".data) [], QRec.theory 2 ("a2".data) ("b2".data) [],
    QRec.theory 3 ("a3".data) ("b3".data) [], QRec.theory 4 ("a4".data) ("b4".data) [],
    QRec.theory 5 ("a5".data) ("b5".data) []], 5⟩

/-- C3: for every successful normalization result, the `id` fields of the
emitted records are exactly `1..N` in output order with no gaps or repeats,
where `N = total` is the number of retained records; ids are assigned by
position among the retained elements (any `id` carried by the source
elements plays no role in `normalizeElement`). -/
theorem c3_ids_dense (p : Json) (r : NormResult) (h : normalizeParsed p = .ok r) :
    r.questions.map QRec.qid = List.range' 1 r.total ∧
    r.total = r.questions.length := by
  obtain ⟨elems, hq, hqs, htot, h5⟩ := normalizeParsed_ok_inv h
  refine ⟨?_, htot⟩
  rw [htot, hqs, assignIds_map_qid, assignIds_length]

theorem c3_witness :
    normalizeParsed w3 = Except.ok w3res ∧
    (w3res.questions.map QRec.qid = List.range' 1 w3res.total ∧
      w3res.total = w3res.questions.length) :=
  ⟨rfl, c3_ids_dense w3 w3res rfl⟩

/-- C8: whenever the retained element count is below the viability threshold
of 5, the normalizer fails with `insufficientQuestions` carrying the actual
retained count (the count interpolated into the error message at source
line 254), rather than succeeding. -/
theorem c8_below_threshold (p : Json) (elems : JArr)
    (hq : jsGet p kQuestions = Json.arr elems)
    (hlt : (elems.toList.filter keepQ).length < 5) :
    normalizeParsed p =
      .error (.insufficientQuestions (elems.toList.filter keepQ).length) := by
  have hp : p ≠ Json.null := by rintro rfl; simp [jsGet] at hq
  rw [normalizeParsed_eq p hp, hq]
  have hlen := assignIds_length (elems.toList.filter keepQ) 0
  simp [hlen, hlt]

def w8elems : JArr := JArr.ofList
  [mkTheoryEl ("a1".data) ("b1".data), mkTheoryEl ("a2".data) ("b2".data),
   Json.str ("stray".data), mkTheoryEl ("a3".data) ("b3".data)]

def w8 : Json := jobj [(kQuestions, Json.arr w8elems)]

theorem c8_witness :
    (jsGet w8 kQuestions = Json.arr w8elems) ∧
    ((w8elems.toList.filter keepQ).length < 5) ∧
    normalizeParsed w8 =
      Except.error (NormError.insufficientQuestions
        ((w8elems.toList.filter keepQ).length)) :=
  ⟨rfl, by decide, c8_below_threshold w8 w8elems rfl (by decide)⟩

-- ── C7: missing `questions` field ──

/-- C7 counterexample: the parsed completion `null` lacks a `questions`
field, yet the handler does not fail with `missingQuestionsField`: line 209
dereferences `parsed.questions` on `null`, which in JavaScript throws an
uncaught `TypeError` (modelled by `nullDeref`). -/
theorem c7_counterexample :
    normalizeParsed Json.null ≠ Except.error NormError.missingQuestionsField ∧
    normalizeParsed Json.null = Except.error NormError.nullDeref :=
  ⟨by simp [normalizeParsed], rfl⟩

/-- C7 (amended): for every parsed completion other than `null` whose
top-level value lacks a `questions` field holding an array, the normalizer
fails with `missingQuestionsField` and emits no records; on `null` itself
the handler instead crashes with a `TypeError`. -/
theorem c7_missing_questions (p : Json) (hp : p ≠ Json.null)
    (hq : ∀ elems : JArr, jsGet p kQuestions ≠ Json.arr elems) :
    normalizeParsed p = .error .missingQuestionsField := by
  rw [normalizeParsed_eq p hp]
  rcases h : jsGet p kQuestions with _ | _ | _ | _ | elems | _ <;>
    first | rfl | exact absurd h (hq _)

def w7 : Json := jobj [(kType, Json.str theoryTag)]

theorem c7_witness :
    (w7 ≠ Json.null) ∧ (∀ elems : JArr, jsGet w7 kQuestions ≠ Json.arr elems) ∧
    normalizeParsed w7 = Except.error NormError.missingQuestionsField := by
  have hp : w7 ≠ Json.null := by simp [w7, jobj, JObj.ofList]
  have hq : ∀ elems : JArr, jsGet w7 kQuestions ≠ Json.arr elems := by
    intro elems h
    exact Json.noConfusion h
  exact ⟨hp, hq, c7_missing_questions w7 hp hq⟩

-- ── C1: emitted objective records ──

theorem headD_mem {α : Type} {l : List α} (d : α) (h : l ≠ []) :
    l.headD d ∈ l := by
  cases l with
  | nil => exact absurd rfl h
  | cons a t => exact List.mem_cons_self a t

theorem coerceOptions_length (q : Json) :
    2 ≤ (coerceOptions q).length ∧ (coerceOptions q).length ≤ 4 := by
  unfold coerceOptions
  rcases h : jsGet q kOptions with _ | b | n | s | xs | fs
  case arr =>
    dsimp only
    split_ifs with h2
    · rw [List.length_map, List.length_take]
      omega
    · exact ⟨by decide, by decide⟩
  all_goals simp [placeholderOpts]

theorem objective_rec_inv {i : Nat} {q : Json} {id : Nat} {qt : Txt}
    {opts : List Txt} {ans ex : Txt}
    (h : normalizeElement i q = .objective id qt opts ans ex) :
    ans ∈ opts ∧ 2 ≤ opts.length ∧ opts.length ≤ 4 := by
  unfold normalizeElement at h
  split_ifs at h with h1 h2
  · simp only [QRec.objective.injEq] at h
    obtain ⟨-, -, hopts, hans, -⟩ := h
    obtain ⟨hlo, hhi⟩ := coerceOptions_length q
    subst hopts
    refine ⟨?_, hlo, hhi⟩
    by_cases hmem : jsToString (jsGet q kAnswer) ∈ coerceOptions q
    · rw [← hans, if_pos hmem]
      exact hmem
    · rw [← hans, if_neg hmem]
      exact headD_mem _ (by intro hnil; rw [hnil] at hlo; cases hlo)

def c1obj : Json := jobj
  [(kType, Json.str objectiveTag), (kQuestion, Json.str ("q0".data)),
   (kAnswer, Json.str ("x".data)),
   (kOptions, jarr [Json.str ("A".data), Json.str ("B".data)])]

def c1in : Json := jobj [(kQuestions, jarr
  [c1obj, mkTheoryEl ("a1".data) ("b1".data), mkTheoryEl ("a2".data) ("b2".data),
   mkTheoryEl ("a3".data) ("b3".data), mkTheoryEl ("a4".data) ("b4".data),
   mkTheoryEl ("a5".data) ("b5".data)])]

def c1res : NormResult :=
  ⟨[QRec.objective 1 ("q0".data) [("A".data), ("B".data)] ("A".data) defaultExplanation,
    QRec.theory 2 ("a1".data) ("b1".data) [], QRec.theory 3 ("a2".data) ("b2".data) [],
    QRec.theory 4 ("a3".data) ("b3".data) [], QRec.theory 5 ("a4".data) ("b4".data) [],
    QRec.theory 6 ("a5".data) ("b5".data) []], 6⟩

/-- C1 counterexample: an objective element supplying exactly two options is
emitted with an options list of length 2, not 4 - the placeholder labels are
substituted only when fewer than two usable options exist, and no padding to
four ever happens. -/
theorem c1_counterexample :
    normalizeParsed c1in = Except.ok c1res ∧
    QRec.objective 1 ("q0".data) [("A".data), ("B".data)] ("A".data)
      defaultExplanation ∈ c1res.questions ∧
    (QRec.objective 1 ("q0".data) [("A".data), ("B".data)] ("A".data)
      defaultExplanation).qoptions.length ≠ 4 :=
  ⟨rfl, by decide, by decide⟩

/-- C1 (amended): every emitted objective record satisfies
`answer ∈ options` and `2 ≤ |options| ≤ 4`.  The length is exactly 4 when
the supplied options are unusable (not an array, or fewer than two entries:
all four placeholder labels are substituted) or when four or more are
supplied (truncation); when two or three usable options are supplied the
emitted length equals the supplied count, so no padding to four occurs. -/
theorem c1_objective_invariant (p : Json) (r : NormResult)
    (h : normalizeParsed p = .ok r) (id : Nat) (qt : Txt) (opts : List Txt)
    (ans ex : Txt) (hm : QRec.objective id qt opts ans ex ∈ r.questions) :
    ans ∈ opts ∧ 2 ≤ opts.length ∧ opts.length ≤ 4 := by
  obtain ⟨elems, hq, hqs, -, -⟩ := normalizeParsed_ok_inv h
  rw [hqs] at hm
  obtain ⟨i, q, -, hrec⟩ := of_mem_assignIds hm
  exact objective_rec_inv hrec.symm

theorem c1_witness :
    normalizeParsed c1in = Except.ok c1res ∧
    QRec.objective 1 ("q0".data) [("A".data), ("B".data)] ("A".data)
      defaultExplanation ∈ c1res.questions ∧
    (("A".data) ∈ ([("A".data), ("B".data)] : List Txt) ∧
      2 ≤ ([("A".data), ("B".data)] : List Txt).length ∧
      ([("A".data), ("B".data)] : List Txt).length ≤ 4) :=
  ⟨rfl, by decide,
    c1_objective_invariant c1in c1res rfl 1 ("q0".data) [("A".data), ("B".data)]
      ("A".data) defaultExplanation (by decide)⟩

-- ── C2: unrecognized / missing type tags ──

def c2elem : Json := jobj
  [(kQuestion, Json.str ("hello".data)), (kAnswer, Json.str ("a".data))]

def c2in : Json := jobj [(kQuestions, jarr
  [c2elem, mkTheoryEl ("a1".data) ("b1".data), mkTheoryEl ("a2".data) ("b2".data),
   mkTheoryEl ("a3".data) ("b3".data), mkTheoryEl ("a4".data) ("b4".data),
   mkTheoryEl ("a5".data) ("b5".data)])]

def c2res : NormResult :=
  ⟨[QRec.theory 1 ("a1".data) ("b1".data) [], QRec.theory 2 ("a2".data) ("b2".data) [],
    QRec.theory 3 ("a3".data) ("b3".data) [], QRec.theory 4 ("a4".data) ("b4".data) [],
    QRec.theory 5 ("a5".data) ("b5".data) []], 5⟩

/-- C2 counterexample: an element with non-empty `question` and `answer`
text but no `type` tag at all is discarded by the filter of line 219
(`q.type` is falsy), not defaulted to a theory record: the run below retains
only the five typed elements. -/
theorem c2_counterexample :
    jsTruthy (jsGet c2elem kQuestion) = true ∧
    jsTruthy (jsGet c2elem kAnswer) = true ∧
    jsGet c2elem kType = Json.null ∧
    keepQ c2elem = false ∧
    normalizeParsed c2in = Except.ok c2res ∧
    c2res.total = 5 :=
  ⟨rfl, rfl, rfl, rfl, rfl, rfl⟩

/-- C2 (amended): an element whose `type` tag is present and truthy but is
neither `"objective"` nor `"subjective"` - an unrecognized tag - is
classified as a theory record and emitted (given non-empty question and
answer text); an element with a missing or falsy `type` tag is instead
discarded by the filter of line 219. -/
theorem c2_unrecognized_tag_theory (p : Json) (r : NormResult) (elems : JArr)
    (q : Json) (h : normalizeParsed p = .ok r)
    (hq : jsGet p kQuestions = Json.arr elems) (hmem : q ∈ elems.toList)
    (ht : jsTruthy q = true) (htag : jsTruthy (jsGet q kType) = true)
    (hno : typeTagIs q objectiveTag = false)
    (hns : typeTagIs q subjectiveTag = false)
    (hques : jsTruthy (jsGet q kQuestion) = true)
    (hans : jsTruthy (jsGet q kAnswer) = true) :
    keepQ q = true ∧
    ∃ i, normalizeElement i q ∈ r.questions ∧
      (normalizeElement i q).isTheory = true := by
  have hk : keepQ q = true := by simp [keepQ, ht, htag, hques, hans]
  obtain ⟨elems2, hq2, hqs, -, -⟩ := normalizeParsed_ok_inv h
  rw [hq] at hq2
  injection hq2 with he
  subst he
  have hmf : q ∈ elems.toList.filter keepQ := List.mem_filter.mpr ⟨hmem, hk⟩
  obtain ⟨i, hi⟩ := mem_assignIds_of_mem hmf 0
  refine ⟨hk, i, by rw [hqs]; exact hi, ?_⟩
  simp [normalizeElement, hno, hns, QRec.isTheory]

def c2welem : Json := jobj
  [(kType, Json.str ("weird".data)), (kQuestion, Json.str ("hello".data)),
   (kAnswer, Json.str ("a".data))]

def c2win : Json := jobj [(kQuestions, jarr
  [c2welem, mkTheoryEl ("a1".data) ("b1".data), mkTheoryEl ("a2".data) ("b2".data),
   mkTheoryEl ("a3".data) ("b3".data), mkTheoryEl ("a4".data) ("b4".data)])]

def c2welems : JArr := JArr.ofList
  [c2welem, mkTheoryEl ("a1".data) ("b1".data), mkTheoryEl ("a2".data) ("b2".data),
   mkTheoryEl ("a3".data) ("b3".data), mkTheoryEl ("a4".data) ("b4".data)]

def c2wres : NormResult :=
  ⟨[QRec.theory 1 ("hello".data) ("a".data) [], QRec.theory 2 ("a1".data) ("b1".data) [],
    QRec.theory 3 ("a2".data) ("b2".data) [], QRec.theory 4 ("a3".data) ("b3".data) [],
    QRec.theory 5 ("a4".data) ("b4".data) []], 5⟩

theorem c2_witness :
    normalizeParsed c2win = Except.ok c2wres ∧
    (keepQ c2welem = true ∧
      ∃ i, normalizeElement i c2welem ∈ c2wres.questions ∧
        (normalizeElement i c2welem).isTheory = true) :=
  ⟨rfl, c2_unrecognized_tag_theory c2win c2wres c2welems c2welem rfl rfl
    (List.mem_cons_self _ _) (by decide) (by decide) (by decide) (by decide)
    (by decide) (by decide)⟩

-- ── C9: objective answer fallback to the first option ──

/-- C9: for every retained objective element whose coerced raw answer
matches none of its coerced options, the emitted record's answer is the
first option (`opts[0]`, source line 225). -/
theorem c9_answer_fallback (p : Json) (r : NormResult) (elems : JArr)
    (q : Json) (h : normalizeParsed p = .ok r)
    (hq : jsGet p kQuestions = Json.arr elems) (hmem : q ∈ elems.toList)
    (hk : keepQ q = true) (hobj : typeTagIs q objectiveTag = true)
    (hnomatch : jsToString (jsGet q kAnswer) ∉ coerceOptions q) :
    coerceOptions q ≠ [] ∧
    ∃ i, normalizeElement i q ∈ r.questions ∧
      (normalizeElement i q).qanswer = (coerceOptions q).headD [] := by
  obtain ⟨elems2, hq2, hqs, -, -⟩ := normalizeParsed_ok_inv h
  rw [hq] at hq2
  injection hq2 with he
  subst he
  have hmf : q ∈ elems.toList.filter keepQ := List.mem_filter.mpr ⟨hmem, hk⟩
  obtain ⟨i, hi⟩ := mem_assignIds_of_mem hmf 0
  refine ⟨?_, i, by rw [hqs]; exact hi, ?_⟩
  · obtain ⟨hlo, -⟩ := coerceOptions_length q
    intro hnil
    rw [hnil] at hlo
    cases hlo
  · simp [normalizeElement, hobj, hnomatch, QRec.qanswer]

def c9elems : JArr := JArr.ofList
  [c1obj, mkTheoryEl ("a1".data) ("b1".data), mkTheoryEl ("a2".data) ("b2".data),
   mkTheoryEl ("a3".data) ("b3".data), mkTheoryEl ("a4".data) ("b4".data),
   mkTheoryEl ("a5".data) ("b5".data)]

theorem c9_witness :
    normalizeParsed c1in = Except.ok c1res ∧
    (jsToString (jsGet c1obj kAnswer) ∉ coerceOptions c1obj) ∧
    (coerceOptions c1obj ≠ [] ∧
      ∃ i, normalizeElement i c1obj ∈ c1res.questions ∧
        (normalizeElement i c1obj).qanswer = (coerceOptions c1obj).headD []) :=
  ⟨rfl, by decide,
    c9_answer_fallback c1in c1res c9elems c1obj rfl rfl
      (List.mem_cons_self _ _) (by decide) (by decide) (by decide)⟩

-- ── C10: theory keywords ──

theorem coerceKeywords_length (q : Json) : (coerceKeywords q).length ≤ 10 := by
  unfold coerceKeywords
  rcases h : jsGet q kKeywords with _ | b | n | s | xs | fs
  case arr =>
    dsimp only
    rw [List.length_take]
    omega
  all_goals simp

theorem coerceKeywords_of_not_array (q : Json)
    (h : isArrJ (jsGet q kKeywords) = false) : coerceKeywords q = [] := by
  unfold coerceKeywords
  rcases hj : jsGet q kKeywords with _ | b | n | s | xs | fs <;> try rfl
  rw [hj] at h
  cases h

theorem theory_rec_inv {i : Nat} {q : Json} {id : Nat} {qt ans : Txt}
    {kws : List Txt} (h : normalizeElement i q = .theory id qt ans kws) :
    kws = coerceKeywords q := by
  unfold normalizeElement at h
  split_ifs at h with h1 h2
  simp only [QRec.theory.injEq] at h
  exact h.2.2.2.symm

/-- C10: every emitted theory record carries at most ten keywords, and its
keywords come from `coerceKeywords`, which yields the empty array whenever
the source element's `keywords` field is absent or not an array. -/
theorem c10_keywords_bounded (p : Json) (r : NormResult) (elems : JArr)
    (h : normalizeParsed p = .ok r) (hq : jsGet p kQuestions = Json.arr elems)
    (id : Nat) (qt ans : Txt) (kws : List Txt)
    (hm : QRec.theory id qt ans kws ∈ r.questions) :
    kws.length ≤ 10 ∧
    ∃ i q, q ∈ elems.toList ∧ normalizeElement i q = QRec.theory id qt ans kws ∧
      kws = coerceKeywords q ∧
      (isArrJ (jsGet q kKeywords) = false → kws = []) := by
  obtain ⟨elems2, hq2, hqs, -, -⟩ := normalizeParsed_ok_inv h
  rw [hq] at hq2
  injection hq2 with he
  subst he
  rw [hqs] at hm
  obtain ⟨i, q, hql, hrec⟩ := of_mem_assignIds hm
  have hkw : kws = coerceKeywords q := theory_rec_inv hrec.symm
  refine ⟨hkw ▸ coerceKeywords_length q, i, q, List.mem_of_mem_filter hql,
    hrec.symm, hkw, ?_⟩
  intro hna
  rw [hkw]
  exact coerceKeywords_of_not_array q hna

def c10el : Json := jobj
  [(kType, Json.str theoryTag), (kQuestion, Json.str ("q".data)),
   (kAnswer, Json.str ("a".data)),
   (kKeywords, jarr
     [Json.str ("k1".data), Json.str ("k2".data), Json.str ("k3".data),
      Json.str ("k4".data), Json.str ("k5".data), Json.str ("k6".data),
      Json.str ("k7".data), Json.str ("k8".data), Json.str ("k9".data),
      Json.str ("k10".data), Json.str ("k11".data), Json.str ("k12".data)])]

def c10elems : JArr := JArr.ofList
  [c10el, mkTheoryEl ("a1".data) ("b1".data), mkTheoryEl ("a2".data) ("b2".data),
   mkTheoryEl ("a3".data) ("b3".data), mkTheoryEl ("a4".data) ("b4".data)]

def c10in : Json := jobj [(kQuestions, Json.arr c10elems)]

def c10kws : List Txt :=
  [("k1".data), ("k2".data), ("k3".data), ("k4".data), ("k5".data),
   ("k6".data), ("k7".data), ("k8".data), ("k9".data), ("k10".data)]

def c10res : NormResult :=
  ⟨[QRec.theory 1 ("q".data) ("a".data) c10kws,
    QRec.theory 2 ("a1".data) ("b1".data) [], QRec.theory 3 ("a2".data) ("b2".data) [],
    QRec.theory 4 ("a3".data) ("b3".data) [], QRec.theory 5 ("a4".data) ("b4".data) []], 5⟩

theorem c10_witness :
    normalizeParsed c10in = Except.ok c10res ∧
    QRec.theory 1 ("q".data) ("a".data) c10kws ∈ c10res.questions ∧
    (c10kws.length ≤ 10 ∧
      ∃ i q, q ∈ c10elems.toList ∧
        normalizeElement i q = QRec.theory 1 ("q".data) ("a".data) c10kws ∧
        c10kws = coerceKeywords q ∧
        (isArrJ (jsGet q kKeywords) = false → c10kws = [])) :=
  ⟨rfl, by decide,
    c10_keywords_bounded c10in c10res c10elems rfl rfl 1 ("q".data) ("a".data)
      c10kws (by decide)⟩

-- ── C5: the brace-to-brace slicing rule ──

/-- Unfolding of the slicing decision inside `runNormalizer`. -/
theorem runNormalizer_eq (raw : Txt) :
    runNormalizer raw =
      (if 0 < indexOfC braceL (cleanFences raw) ∧
          indexOfC braceL (cleanFences raw) <
            lastIndexOfC braceR (cleanFences raw)
       then parsePhase (braceSlice (cleanFences raw))
       else parsePhase (cleanFences raw)) := by
  unfold runNormalizer braceSlice
  dsimp only
  split_ifs with h <;> rfl

def c5raw : Txt := [braceL] ++ "\"questions\":[]".data ++ [braceR] ++ " x".data

/-- C5 counterexample: on a cleaned text whose first opening brace sits at
position 0 but which has trailing garbage, the direct parse fails and the
brace-to-brace slice would parse, yet no retry on the slice happens: line
191 requires `jsonStart > 0`, so the pipeline fails with
`malformedCompletion`. -/
theorem c5_counterexample :
    cleanFences c5raw = c5raw ∧
    Json.parse c5raw = none ∧
    indexOfC braceL c5raw = 0 ∧
    indexOfC braceL c5raw < lastIndexOfC braceR c5raw ∧
    Json.parse (braceSlice c5raw) = some (jobj [(kQuestions, jarr [])]) ∧
    runNormalizer c5raw = Except.error NormError.malformedCompletion :=
  ⟨rfl, rfl, rfl, by decide, rfl, rfl⟩

/-- C5 (amended): the brace-to-brace slicing of lines 188-193 happens before
the one and only parse attempt.  For a cleaned completion text that fails to
parse directly: when the first `{` occurs at a strictly positive index that
strictly precedes the last `}`, the parse is performed on the inclusive
slice between them; otherwise (in particular whenever the first `{` is at
position 0, or either brace is missing) no slice is taken and the pipeline
fails with `malformedCompletion`. -/
theorem c5_slice_before_parse (raw : Txt)
    (hfail : Json.parse (cleanFences raw) = none) :
    (0 < indexOfC braceL (cleanFences raw) ∧
        indexOfC braceL (cleanFences raw) <
          lastIndexOfC braceR (cleanFences raw) →
      runNormalizer raw = parsePhase (braceSlice (cleanFences raw))) ∧
    (¬(0 < indexOfC braceL (cleanFences raw) ∧
        indexOfC braceL (cleanFences raw) <
          lastIndexOfC braceR (cleanFences raw)) →
      runNormalizer raw = Except.error NormError.malformedCompletion) := by
  constructor
  · intro hc
    rw [runNormalizer_eq, if_pos hc]
  · intro hc
    rw [runNormalizer_eq, if_neg hc]
    unfold parsePhase
    rw [hfail]

def c5wraw : Txt := "prose ".data ++ [braceL] ++ "\"questions\":[]".data ++ [braceR]

theorem c5_witness :
    Json.parse (cleanFences c5wraw) = none ∧
    (0 < indexOfC braceL (cleanFences c5wraw) ∧
      indexOfC braceL (cleanFences c5wraw) <
        lastIndexOfC braceR (cleanFences c5wraw)) ∧
    runNormalizer c5wraw = parsePhase (braceSlice (cleanFences c5wraw)) ∧
    runNormalizer c5wraw = Except.error (NormError.insufficientQuestions 0) :=
  ⟨rfl, by decide, (c5_slice_before_parse c5wraw rfl).1 (by decide), rfl⟩

-- ── C6: string lemmas for fence-wrapped payloads ──

theorem dropWhile_cons_neg {p : Char → Bool} {c : Char} {l : Txt}
    (h : p c = false) : List.dropWhile p (c :: l) = c :: l := by
  simp [List.dropWhile_cons, h]

theorem dropWhileWs_append (a b : Txt) (hb : dropWhileWs b = b) :
    dropWhileWs (a ++ b) = dropWhileWs a ++ b := by
  induction a with
  | nil => simpa [dropWhileWs] using hb
  | cons x xs ih =>
    by_cases hx : isWsChar x
    · simpa [dropWhileWs, List.dropWhile_cons, hx] using ih
    · simp [dropWhileWs, List.dropWhile_cons, hx]

theorem indexOfC_cons_self (c : Char) (t : Txt) : indexOfC c (c :: t) = 0 := by
  simp [indexOfC]

theorem indexOfC_nonneg_of_zero {c : Char} {b : Txt} (h : indexOfC c b = 0) :
    ¬ indexOfC c b < 0 := by rw [h]; decide

theorem indexOfC_append_zero {c : Char} {a b : Txt} (ha : c ∉ a)
    (hb : indexOfC c b = 0) : indexOfC c (a ++ b) = (a.length : Int) := by
  induction a with
  | nil => simpa
  | cons x xs ih =>
    have hx : x ≠ c := by rintro rfl; exact ha (List.mem_cons_self _ _)
    have hxs : c ∉ xs := fun hm => ha (List.mem_cons_of_mem _ hm)
    have ih2 := ih hxs
    rw [List.cons_append]
    show (if x = c then (0 : Int) else
      (let r := indexOfC c (xs ++ b); if r < 0 then -1 else r + 1)) = _
    rw [if_neg hx]
    dsimp only
    rw [ih2, if_neg (by omega)]
    simp only [List.length_cons]
    push_cast
    ring

theorem lastIndexOfC_of_rev_head {c : Char} {l t : Txt}
    (h : l.reverse = c :: t) : lastIndexOfC c l = (l.length : Int) - 1 := by
  unfold lastIndexOfC
  rw [h, indexOfC_cons_self]
  norm_num

theorem stripJsonFence_of_head {c : Char} {t : Txt} (hc : c ≠ Char.ofNat 96) :
    stripJsonFence (c :: t) = c :: t := by
  unfold stripJsonFence
  rw [if_neg]
  rintro ⟨h1, -⟩
  rw [List.take_succ_cons] at h1
  simp only [fence3, List.cons.injEq] at h1
  exact hc h1.1

theorem stripFence_of_head {c : Char} {t : Txt} (hc : c ≠ Char.ofNat 96) :
    stripFence (c :: t) = c :: t := by
  unfold stripFence
  rw [if_neg]
  intro h1
  rw [List.take_succ_cons] at h1
  simp only [fence3, List.cons.injEq] at h1
  exact hc h1.1

theorem stripTrailFence_of_last {c : Char} {s : Txt}
    (hw : isWsChar c = false) (hc : c ≠ Char.ofNat 96) :
    stripTrailFence (s ++ [c]) = s ++ [c] := by
  unfold stripTrailFence
  have hrev : (s ++ [c]).reverse = c :: s.reverse := by simp
  rw [hrev]
  dsimp only
  rw [show dropWhileWs (c :: s.reverse) = c :: s.reverse from
    dropWhile_cons_neg hw]
  rw [if_neg]
  intro h1
  rw [List.take_succ_cons] at h1
  simp only [fence3, List.cons.injEq] at h1
  exact hc h1.1

theorem trimS_of_ends {l : Txt} {c d : Char} {t s : Txt}
    (hcons : l = c :: t) (hsnoc : l = s ++ [d])
    (hcw : isWsChar c = false) (hdw : isWsChar d = false) : trimS l = l := by
  unfold trimS
  have h1 : l.dropWhile isWsChar = l := by
    rw [hcons]; exact dropWhile_cons_neg hcw
  have h2 : l.reverse.dropWhile isWsChar = l.reverse := by
    rw [hsnoc, List.reverse_append]
    exact dropWhile_cons_neg hdw
  rw [h1, h2, List.reverse_reverse]

theorem cleanFences_of_ends {l : Txt} {c d : Char} {t s : Txt}
    (hcons : l = c :: t) (hsnoc : l = s ++ [d])
    (hcw : isWsChar c = false) (hct : c ≠ Char.ofNat 96)
    (hdw : isWsChar d = false) (hdt : d ≠ Char.ofNat 96) :
    cleanFences l = l := by
  unfold cleanFences
  rw [hcons, stripJsonFence_of_head hct, stripFence_of_head hct, ← hcons,
    hsnoc, stripTrailFence_of_last hdw hdt, ← hsnoc]
  exact trimS_of_ends hcons hsnoc hcw hdw

theorem cleanFences_wrap {prose j : Txt} {p0 : Char} {pt s : Txt}
    (hpr : prose = p0 :: pt) (hp0 : p0 ≠ Char.ofNat 96)
    (hjc : ∃ t, j = braceL :: t) (hjl : j = s ++ [braceR]) :
    cleanFences (wrapFence prose j) = dropWhileWs prose ++ fenceOpen ++ j := by
  obtain ⟨t, hjh⟩ := hjc
  unfold cleanFences wrapFence
  have e1 : prose ++ fenceOpen ++ j ++ fenceClose =
      p0 :: (pt ++ fenceOpen ++ j ++ fenceClose) := by
    rw [hpr]; simp
  rw [e1, stripJsonFence_of_head hp0, stripFence_of_head hp0, ← e1]
  have hfc : fenceClose.reverse =
      Char.ofNat 96 :: Char.ofNat 96 :: Char.ofNat 96 :: [Char.ofNat 10] := by
    decide
  have e2 : stripTrailFence (prose ++ fenceOpen ++ j ++ fenceClose) =
      prose ++ fenceOpen ++ j := by
    unfold stripTrailFence
    have hrev : (prose ++ fenceOpen ++ j ++ fenceClose).reverse =
        Char.ofNat 96 :: Char.ofNat 96 :: Char.ofNat 96 :: Char.ofNat 10 ::
          (j.reverse ++ (fenceOpen.reverse ++ prose.reverse)) := by
      simp [List.reverse_append, hfc]
    rw [hrev]
    dsimp only
    rw [show dropWhileWs (Char.ofNat 96 :: Char.ofNat 96 :: Char.ofNat 96 ::
        Char.ofNat 10 :: (j.reverse ++ (fenceOpen.reverse ++ prose.reverse))) =
        Char.ofNat 96 :: Char.ofNat 96 :: Char.ofNat 96 :: Char.ofNat 10 ::
        (j.reverse ++ (fenceOpen.reverse ++ prose.reverse)) from
      dropWhile_cons_neg (by decide)]
    rw [if_pos (by rw [List.take_succ_cons, List.take_succ_cons,
      List.take_succ_cons]; rfl)]
    rw [List.drop_succ_cons, List.drop_succ_cons, List.drop_succ_cons,
      List.drop_zero]
    have hdws : dropWhileWs (Char.ofNat 10 ::
        (j.reverse ++ (fenceOpen.reverse ++ prose.reverse))) =
        j.reverse ++ (fenceOpen.reverse ++ prose.reverse) := by
      have hjr : j.reverse = braceR :: s.reverse := by
        rw [hjl]; simp
      unfold dropWhileWs
      rw [List.dropWhile_cons]
      rw [if_pos (by decide)]
      rw [hjr, List.cons_append]
      exact dropWhile_cons_neg (by decide)
    rw [hdws]
    simp [List.reverse_append]
  rw [e2]
  unfold trimS
  have hfo : fenceOpen = Char.ofNat 96 :: "``json\n".data := by decide
  have h1 : (prose ++ fenceOpen ++ j).dropWhile isWsChar =
      dropWhileWs prose ++ (fenceOpen ++ j) := by
    rw [List.append_assoc]
    exact dropWhileWs_append prose (fenceOpen ++ j) (by
      rw [hfo, List.cons_append]
      exact dropWhile_cons_neg (by decide))
  have h2 : (dropWhileWs prose ++ (fenceOpen ++ j)).reverse.dropWhile isWsChar
      = (dropWhileWs prose ++ (fenceOpen ++ j)).reverse := by
    have hrev2 : (dropWhileWs prose ++ (fenceOpen ++ j)).reverse =
        braceR :: (s.reverse ++ (fenceOpen.reverse ++ (dropWhileWs prose).reverse)) := by
      rw [hjl]
      simp [List.reverse_append]
    rw [hrev2]
    exact dropWhile_cons_neg (by decide)
  rw [h1, h2, List.reverse_reverse, List.append_assoc]

/-- C6: for every JSON object text (starting with `{`, ending with `}`) on
which the normalizer succeeds, wrapping it in a markdown code fence tagged
`json` and preceding it with prose (text free of braces and backticks)
yields the same normalization result as the bare JSON text alone. -/
theorem c6_fence_wrap (prose j : Txt) (p0 : Char) (pt s : Txt)
    (hpr : prose = p0 :: pt)
    (hp : ∀ c ∈ prose, c ≠ braceL ∧ c ≠ braceR ∧ c ≠ Char.ofNat 96)
    (hjc : ∃ t, j = braceL :: t) (hjl : j = s ++ [braceR])
    (_hok : isOkR (runNormalizer j) = true) :
    runNormalizer (wrapFence prose j) = runNormalizer j := by
  obtain ⟨t, hjh⟩ := hjc
  have hp0 : p0 ≠ Char.ofNat 96 :=
    (hp p0 (by rw [hpr]; exact List.mem_cons_self _ _)).2.2
  -- the bare run works on `j` itself, unsliced
  have hclean_b : cleanFences j = j :=
    cleanFences_of_ends hjh hjl (by decide) (by decide) (by decide) (by decide)
  have hidx_b : indexOfC braceL j = 0 := by
    rw [hjh]; exact indexOfC_cons_self _ _
  have hbare : runNormalizer j = parsePhase j := by
    rw [runNormalizer_eq, hclean_b, hidx_b, if_neg (by simp)]
  -- the wrapped run cleans to `P ++ j` and slices exactly `j` back out
  have hcw : cleanFences (wrapFence prose j) =
      dropWhileWs prose ++ fenceOpen ++ j :=
    cleanFences_wrap hpr hp0 ⟨t, hjh⟩ hjl
  have hPL : braceL ∉ dropWhileWs prose ++ fenceOpen := by
    intro hm
    rcases List.mem_append.mp hm with hm | hm
    · exact (hp braceL (List.dropWhile_subset _ hm)).1 rfl
    · revert hm; decide
  have hidx_w : indexOfC braceL (dropWhileWs prose ++ fenceOpen ++ j) =
      ((dropWhileWs prose ++ fenceOpen).length : Int) :=
    indexOfC_append_zero hPL hidx_b
  have hrev_w : (dropWhileWs prose ++ fenceOpen ++ j).reverse =
      braceR :: (s.reverse ++ (fenceOpen.reverse ++ (dropWhileWs prose).reverse)) := by
    rw [hjl]
    simp [List.reverse_append]
  have hlast_w : lastIndexOfC braceR (dropWhileWs prose ++ fenceOpen ++ j) =
      (((dropWhileWs prose ++ fenceOpen ++ j).length : Int)) - 1 :=
    lastIndexOfC_of_rev_head hrev_w
  have hjlen : 2 ≤ j.length := by
    rcases s with _ | ⟨x, s2⟩
    · rw [hjl] at hjh
      simp only [List.nil_append, List.cons.injEq] at hjh
      exact absurd hjh.1 (by decide)
    · rw [hjl]
      simp
  have hfol : 0 < (dropWhileWs prose ++ fenceOpen).length := by
    have : fenceOpen.length = 8 := by decide
    simp [List.length_append, this]
  have hcond : 0 < indexOfC braceL (dropWhileWs prose ++ fenceOpen ++ j) ∧
      indexOfC braceL (dropWhileWs prose ++ fenceOpen ++ j) <
        lastIndexOfC braceR (dropWhileWs prose ++ fenceOpen ++ j) := by
    rw [hidx_w, hlast_w]
    constructor
    · exact_mod_cast hfol
    · have hlen : (dropWhileWs prose ++ fenceOpen ++ j).length =
          (dropWhileWs prose ++ fenceOpen).length + j.length := by
        simp [List.length_append]
        omega
      rw [hlen]
      push_cast
      omega
  have hslice : braceSlice (dropWhileWs prose ++ fenceOpen ++ j) = j := by
    unfold braceSlice
    rw [hidx_w, hlast_w]
    have h1 : ((((dropWhileWs prose ++ fenceOpen ++ j).length : Int)) - 1).toNat
        + 1 = (dropWhileWs prose ++ fenceOpen ++ j).length := by
      have : 0 < (dropWhileWs prose ++ fenceOpen ++ j).length := by
        simp [List.length_append]
        omega
      omega
    rw [h1, List.take_length]
    have h2 : (((dropWhileWs prose ++ fenceOpen).length : Int)).toNat =
        (dropWhileWs prose ++ fenceOpen).length := by omega
    rw [h2, List.drop_left]
  rw [hbare, runNormalizer_eq, hcw, if_pos hcond, hslice]

/-- One theory element of the C6 witness payload, as raw JSON text. -/
def c6elTxt (q a : Txt) : Txt :=
  [braceL] ++ "\"type\":\"theory\",\"question\":\"".data ++ q ++
    "\",\"answer\":\"".data ++ a ++ "\"".data ++ [braceR]

/-- The bare JSON object text of the C6 witness. -/
def c6j : Txt :=
  [braceL] ++ "\"questions\":[".data ++
    c6elTxt ("a1".data) ("b1".data) ++ ",".data ++
    c6elTxt ("a2".data) ("b2".data) ++ ",".data ++
    c6elTxt ("a3".data) ("b3".data) ++ ",".data ++
    c6elTxt ("a4".data) ("b4".data) ++ ",".data ++
    c6elTxt ("a5".data) ("b5".data) ++ "]".data ++ [braceR]

def c6prose : Txt := "Here is the JSON you asked for:\n".data

theorem c6_witness :
    isOkR (runNormalizer c6j) = true ∧
    runNormalizer (wrapFence c6prose c6j) = runNormalizer c6j :=
  ⟨by decide,
    c6_fence_wrap c6prose c6j (Char.ofNat 72) (c6prose.tail) (c6j.dropLast)
      (by decide) (by decide) ⟨c6j.tail, by decide⟩ (by decide) (by decide)⟩

-- ── C4: idempotence lemmas for trimming and lower-casing ──

theorem dropWhile_dropWhile (p : Char → Bool) (l : Txt) :
    (l.dropWhile p).dropWhile p = l.dropWhile p := by
  induction l with
  | nil => rfl
  | cons x xs ih =>
    by_cases h : p x
    · simp [List.dropWhile_cons, h, ih]
    · simp [List.dropWhile_cons, h]

theorem dropWhile_head_false {p : Char → Bool} {l : Txt} {x : Char} {xs : Txt}
    (h : l.dropWhile p = x :: xs) : p x = false := by
  induction l with
  | nil => cases h
  | cons y ys ih =>
    by_cases hy : p y
    · rw [List.dropWhile_cons, if_pos hy] at h
      exact ih h
    · rw [List.dropWhile_cons, if_neg hy] at h
      injection h with h1 h2
      rw [← h1]
      simpa using hy

theorem dropWhile_append_last {p : Char → Bool} {c : Char} (hc : p c = false)
    (a : Txt) : ∃ S, (a ++ [c]).dropWhile p = S ++ [c] := by
  induction a with
  | nil => exact ⟨[], by simp [List.dropWhile_cons, hc]⟩
  | cons y ys ih =>
    by_cases hy : p y
    · obtain ⟨S, hS⟩ := ih
      exact ⟨S, by rw [List.cons_append, List.dropWhile_cons, if_pos hy]; exact hS⟩
    · exact ⟨y :: ys, by rw [List.cons_append, List.dropWhile_cons, if_neg hy]⟩

theorem trimS_dropWhile (l : Txt) : (trimS l).dropWhile isWsChar = trimS l := by
  unfold trimS
  rcases h : l.dropWhile isWsChar with _ | ⟨x, xs⟩
  · simp
  · have hx : isWsChar x = false := dropWhile_head_false h
    obtain ⟨S, hS⟩ := dropWhile_append_last hx xs.reverse
    rw [List.reverse_cons, hS, List.reverse_append]
    simp only [List.reverse_cons, List.reverse_nil, List.nil_append,
      List.cons_append]
    exact dropWhile_cons_neg hx

theorem trimS_idem (l : Txt) : trimS (trimS l) = trimS l := by
  conv_lhs => rw [trimS]
  rw [trimS_dropWhile]
  have h2 : (trimS l).reverse.dropWhile isWsChar = (trimS l).reverse := by
    unfold trimS
    rw [List.reverse_reverse]
    exact dropWhile_dropWhile _ _
  rw [h2, List.reverse_reverse]

theorem isWsChar_lowChar (c : Char) : isWsChar (lowChar c) = isWsChar c := by
  unfold lowChar
  rcases hf : lowPairs.find? (fun p => p.1 == c) with _ | pr
  · rw [hf]; rfl
  · have hm : pr ∈ lowPairs := List.mem_of_find?_eq_some hf
    have hc : pr.1 = c := by
      have := List.find?_some hf
      exact eq_of_beq this
    have hall : ∀ p ∈ lowPairs, isWsChar p.2 = false ∧ isWsChar p.1 = false := by
      decide
    have hws := hall pr hm
    rw [hf]
    show isWsChar pr.2 = isWsChar c
    rw [hws.1, ← hc, hws.2]

theorem lowChar_lowChar (c : Char) : lowChar (lowChar c) = lowChar c := by
  rcases hf : lowPairs.find? (fun p => p.1 == c) with _ | pr
  · have h1 : lowChar c = c := by unfold lowChar; rw [hf]; rfl
    rw [h1, h1]
  · have h1 : lowChar c = pr.2 := by unfold lowChar; rw [hf]; rfl
    have hm : pr ∈ lowPairs := List.mem_of_find?_eq_some hf
    have hall : ∀ p ∈ lowPairs, lowChar p.2 = p.2 := by decide
    rw [h1, hall pr hm]

theorem lowerS_lowerS (l : Txt) : lowerS (lowerS l) = lowerS l := by
  unfold lowerS
  rw [List.map_map]
  apply List.map_congr_left
  intro c _
  exact lowChar_lowChar c

theorem dropWhile_lowerS (l : Txt) :
    (lowerS l).dropWhile isWsChar = lowerS (l.dropWhile isWsChar) := by
  induction l with
  | nil => rfl
  | cons x xs ih =>
    by_cases hx : isWsChar x
    · have hx2 : isWsChar (lowChar x) = true := by rw [isWsChar_lowChar]; exact hx
      simp only [lowerS, List.map_cons, List.dropWhile_cons, hx2, hx, if_true]
      exact ih
    · have hx2 : isWsChar (lowChar x) = false := by
        rw [isWsChar_lowChar]; simpa using hx
      simp [lowerS, List.dropWhile_cons, hx2, hx]

theorem lowerS_reverse (l : Txt) : lowerS l.reverse = (lowerS l).reverse := by
  unfold lowerS
  exact List.map_reverse _ _

theorem trimS_lowerS (l : Txt) : trimS (lowerS l) = lowerS (trimS l) := by
  unfold trimS
  rw [dropWhile_lowerS, ← lowerS_reverse, dropWhile_lowerS, ← lowerS_reverse]

theorem trimS_lowerS_trimS (l : Txt) :
    trimS (lowerS (trimS l)) = lowerS (trimS l) := by
  rw [trimS_lowerS, trimS_idem]

theorem lowerS_lowerS_trimS (l : Txt) :
    lowerS (lowerS (trimS l)) = lowerS (trimS l) := lowerS_lowerS _

-- ── C4: re-normalizing an emitted record reproduces it ──

theorem toList_ofList (l : List Json) : (JArr.ofList l).toList = l := by
  induction l with
  | nil => rfl
  | cons x xs ih => simp [JArr.ofList, JArr.toList, ih]

/-- The re-run keeps every emitted record whose question and answer text is
non-empty (`goodRec`); for objective records the explanation must also be
non-empty, or the re-run's `q.explanation || default` would substitute the
default text. -/
def goodRec : QRec → Bool
  | .objective _ q _ a e => !q.isEmpty && !a.isEmpty && !e.isEmpty
  | .subjective _ q a => !q.isEmpty && !a.isEmpty
  | .theory _ q a _ => !q.isEmpty && !a.isEmpty

theorem keepQ_recordToJson {rec : QRec} (hg : goodRec rec = true) :
    keepQ (recordToJson rec) = true := by
  cases rec with
  | objective i q o a e =>
    simp only [goodRec, Bool.and_eq_true] at hg
    unfold keepQ
    rw [show jsGet (recordToJson (QRec.objective i q o a e)) kType =
      Json.str objectiveTag from rfl]
    rw [show jsGet (recordToJson (QRec.objective i q o a e)) kQuestion =
      Json.str q from rfl]
    rw [show jsGet (recordToJson (QRec.objective i q o a e)) kAnswer =
      Json.str a from rfl]
    rw [show jsTruthy (recordToJson (QRec.objective i q o a e)) = true from rfl]
    rw [show jsTruthy (Json.str objectiveTag) = true from rfl]
    rw [show jsTruthy (Json.str q) = !q.isEmpty from rfl]
    rw [show jsTruthy (Json.str a) = !a.isEmpty from rfl]
    simp [hg.1.1, hg.1.2]
  | subjective i q a =>
    simp only [goodRec, Bool.and_eq_true] at hg
    unfold keepQ
    rw [show jsGet (recordToJson (QRec.subjective i q a)) kType =
      Json.str subjectiveTag from rfl]
    rw [show jsGet (recordToJson (QRec.subjective i q a)) kQuestion =
      Json.str q from rfl]
    rw [show jsGet (recordToJson (QRec.subjective i q a)) kAnswer =
      Json.str a from rfl]
    rw [show jsTruthy (recordToJson (QRec.subjective i q a)) = true from rfl]
    rw [show jsTruthy (Json.str subjectiveTag) = true from rfl]
    rw [show jsTruthy (Json.str q) = !q.isEmpty from rfl]
    rw [show jsTruthy (Json.str a) = !a.isEmpty from rfl]
    simp [hg.1, hg.2]
  | theory i q a kws =>
    simp only [goodRec, Bool.and_eq_true] at hg
    unfold keepQ
    rw [show jsGet (recordToJson (QRec.theory i q a kws)) kType =
      Json.str theoryTag from rfl]
    rw [show jsGet (recordToJson (QRec.theory i q a kws)) kQuestion =
      Json.str q from rfl]
    rw [show jsGet (recordToJson (QRec.theory i q a kws)) kAnswer =
      Json.str a from rfl]
    rw [show jsTruthy (recordToJson (QRec.theory i q a kws)) = true from rfl]
    rw [show jsTruthy (Json.str theoryTag) = true from rfl]
    rw [show jsTruthy (Json.str q) = !q.isEmpty from rfl]
    rw [show jsTruthy (Json.str a) = !a.isEmpty from rfl]
    simp [hg.1, hg.2]

theorem renorm_objective (i rid : Nat) (qt : Txt) (opts : List Txt)
    (ans ex : Txt) (hqt : trimS qt = qt) (hex : trimS ex = ex)
    (hlen2 : 2 ≤ opts.length) (hlen4 : opts.length ≤ 4) (hmem : ans ∈ opts)
    (hexne : ex ≠ []) :
    normalizeElement i (recordToJson (QRec.objective rid qt opts ans ex)) =
      QRec.objective (i + 1) qt opts ans ex := by
  have htype : typeTagIs (recordToJson (QRec.objective rid qt opts ans ex))
      objectiveTag = true := rfl
  have hopts : coerceOptions (recordToJson (QRec.objective rid qt opts ans ex))
      = opts := by
    unfold coerceOptions
    rw [show jsGet (recordToJson (QRec.objective rid qt opts ans ex)) kOptions =
      Json.arr (JArr.ofList (opts.map Json.str)) from rfl]
    dsimp only
    rw [toList_ofList, List.length_map, if_pos hlen2, ← List.map_take,
      List.take_of_length_le hlen4, List.map_map]
    have hcomp : (jsToString ∘ Json.str) = fun s => s := funext fun s => rfl
    rw [hcomp]
    exact List.map_id _
  have hexp : coerceExplanation (recordToJson (QRec.objective rid qt opts ans ex))
      = ex := by
    unfold coerceExplanation
    have hbig : jsTruthy (jsGet
        (recordToJson (QRec.objective rid qt opts ans ex)) kExplanation)
        = true := by
      rw [show jsGet (recordToJson (QRec.objective rid qt opts ans ex))
        kExplanation = Json.str ex from rfl]
      simp [jsTruthy, List.isEmpty_iff, hexne]
    rw [if_pos hbig]
    rw [show jsGet (recordToJson (QRec.objective rid qt opts ans ex))
      kExplanation = Json.str ex from rfl]
    rw [show jsToString (Json.str ex) = ex from rfl]
    exact hex
  unfold normalizeElement
  rw [if_pos htype]
  dsimp only
  rw [hopts, hexp]
  rw [show jsGet (recordToJson (QRec.objective rid qt opts ans ex)) kQuestion =
    Json.str qt from rfl]
  rw [show jsGet (recordToJson (QRec.objective rid qt opts ans ex)) kAnswer =
    Json.str ans from rfl]
  rw [show jsToString (Json.str qt) = qt from rfl]
  rw [show jsToString (Json.str ans) = ans from rfl]
  rw [hqt, if_pos hmem]

theorem renorm_subjective (i rid : Nat) (qt ans : Txt)
    (hqt : trimS qt = qt) (hanst : trimS ans = ans)
    (hansl : lowerS ans = ans) :
    normalizeElement i (recordToJson (QRec.subjective rid qt ans)) =
      QRec.subjective (i + 1) qt ans := by
  have hno : typeTagIs (recordToJson (QRec.subjective rid qt ans))
      objectiveTag = false := rfl
  have hns : typeTagIs (recordToJson (QRec.subjective rid qt ans))
      subjectiveTag = true := rfl
  unfold normalizeElement
  rw [if_neg (by rw [hno]; exact Bool.false_ne_true), if_pos hns]
  rw [show jsGet (recordToJson (QRec.subjective rid qt ans)) kQuestion =
    Json.str qt from rfl]
  rw [show jsGet (recordToJson (QRec.subjective rid qt ans)) kAnswer =
    Json.str ans from rfl]
  rw [show jsToString (Json.str qt) = qt from rfl]
  rw [show jsToString (Json.str ans) = ans from rfl]
  rw [hqt, hanst, hansl]

theorem renorm_theory (i rid : Nat) (qt ans : Txt) (kws : List Txt)
    (hqt : trimS qt = qt) (hanst : trimS ans = ans)
    (hk10 : kws.length ≤ 10) :
    normalizeElement i (recordToJson (QRec.theory rid qt ans kws)) =
      QRec.theory (i + 1) qt ans kws := by
  have hno : typeTagIs (recordToJson (QRec.theory rid qt ans kws))
      objectiveTag = false := rfl
  have hns : typeTagIs (recordToJson (QRec.theory rid qt ans kws))
      subjectiveTag = false := rfl
  have hkw : coerceKeywords (recordToJson (QRec.theory rid qt ans kws))
      = kws := by
    unfold coerceKeywords
    rw [show jsGet (recordToJson (QRec.theory rid qt ans kws)) kKeywords =
      Json.arr (JArr.ofList (kws.map Json.str)) from rfl]
    dsimp only
    rw [toList_ofList, List.map_map]
    have hcomp : (jsToString ∘ Json.str) = fun s => s := funext fun s => rfl
    rw [hcomp]
    rw [show List.map (fun s => s) kws = kws from List.map_id _]
    exact List.take_of_length_le hk10
  unfold normalizeElement
  rw [if_neg (by rw [hno]; exact Bool.false_ne_true),
    if_neg (by rw [hns]; exact Bool.false_ne_true)]
  rw [hkw]
  rw [show jsGet (recordToJson (QRec.theory rid qt ans kws)) kQuestion =
    Json.str qt from rfl]
  rw [show jsGet (recordToJson (QRec.theory rid qt ans kws)) kAnswer =
    Json.str ans from rfl]
  rw [show jsToString (Json.str qt) = qt from rfl]
  rw [show jsToString (Json.str ans) = ans from rfl]
  rw [hqt, hanst]

theorem stable_of_objective {i : Nat} {q : Json} {rid : Nat} {qt : Txt}
    {opts : List Txt} {ans ex : Txt}
    (h : normalizeElement i q = .objective rid qt opts ans ex) :
    trimS qt = qt ∧ trimS ex = ex := by
  unfold normalizeElement at h
  split_ifs at h with h1 h2
  simp only [QRec.objective.injEq] at h
  obtain ⟨-, hqt, -, -, hex⟩ := h
  refine ⟨?_, ?_⟩
  · rw [← hqt]; exact trimS_idem _
  · rw [← hex]; unfold coerceExplanation; exact trimS_idem _

theorem stable_of_subjective {i : Nat} {q : Json} {rid : Nat} {qt ans : Txt}
    (h : normalizeElement i q = .subjective rid qt ans) :
    trimS qt = qt ∧ trimS ans = ans ∧ lowerS ans = ans := by
  unfold normalizeElement at h
  split_ifs at h with h1 h2
  simp only [QRec.subjective.injEq] at h
  obtain ⟨-, hqt, hans⟩ := h
  refine ⟨?_, ?_, ?_⟩
  · rw [← hqt]; exact trimS_idem _
  · rw [← hans]; exact trimS_lowerS_trimS _
  · rw [← hans]; exact lowerS_lowerS_trimS _

theorem stable_of_theory {i : Nat} {q : Json} {rid : Nat} {qt ans : Txt}
    {kws : List Txt} (h : normalizeElement i q = .theory rid qt ans kws) :
    trimS qt = qt ∧ trimS ans = ans ∧ kws.length ≤ 10 := by
  have hkw : kws = coerceKeywords q := theory_rec_inv h
  unfold normalizeElement at h
  split_ifs at h with h1 h2
  simp only [QRec.theory.injEq] at h
  obtain ⟨-, hqt, hans, -⟩ := h
  refine ⟨?_, ?_, ?_⟩
  · rw [← hqt]; exact trimS_idem _
  · rw [← hans]; exact trimS_idem _
  · rw [hkw]; exact coerceKeywords_length q

theorem renorm_element_full (i : Nat) (q : Json)
    (hg : goodRec (normalizeElement i q) = true) :
    normalizeElement i (recordToJson (normalizeElement i q)) =
      normalizeElement i q := by
  rcases hrec : normalizeElement i q with
    ⟨rid, qt, opts, ans, ex⟩ | ⟨rid, qt, ans⟩ | ⟨rid, qt, ans, kws⟩
  · have hid : rid = i + 1 := by
      have hq := qid_normalizeElement i q
      rw [hrec] at hq
      exact hq
    obtain ⟨hqt, hex⟩ := stable_of_objective hrec
    obtain ⟨hmem, hlo, hhi⟩ := objective_rec_inv hrec
    rw [hrec] at hg
    simp only [goodRec, Bool.and_eq_true] at hg
    have hexne : ex ≠ [] := by
      have h2 := hg.2
      simpa [List.isEmpty_iff] using h2
    rw [renorm_objective i rid qt opts ans ex hqt hex hlo hhi hmem hexne, hid]
  · have hid : rid = i + 1 := by
      have hq := qid_normalizeElement i q
      rw [hrec] at hq
      exact hq
    obtain ⟨hqt, hanst, hansl⟩ := stable_of_subjective hrec
    rw [renorm_subjective i rid qt ans hqt hanst hansl, hid]
  · have hid : rid = i + 1 := by
      have hq := qid_normalizeElement i q
      rw [hrec] at hq
      exact hq
    obtain ⟨hqt, hanst, hk10⟩ := stable_of_theory hrec
    rw [renorm_theory i rid qt ans kws hqt hanst hk10, hid]

theorem renorm_list (l : List Json) (n : Nat)
    (hg : ∀ rec ∈ assignIds n l, goodRec rec = true) :
    ((assignIds n l).map recordToJson).filter keepQ =
      (assignIds n l).map recordToJson ∧
    assignIds n ((assignIds n l).map recordToJson) = assignIds n l := by
  induction l generalizing n with
  | nil => exact ⟨rfl, rfl⟩
  | cons q qs ih =>
    have hghead : goodRec (normalizeElement n q) = true :=
      hg _ (List.mem_cons_self _ _)
    have hgtail : ∀ rec ∈ assignIds (n + 1) qs, goodRec rec = true :=
      fun rec hm => hg rec (List.mem_cons_of_mem _ hm)
    obtain ⟨ihf, iha⟩ := ih (n + 1) hgtail
    constructor
    · rw [show assignIds n (q :: qs) =
        normalizeElement n q :: assignIds (n + 1) qs from rfl]
      rw [List.map_cons, List.filter_cons,
        if_pos (keepQ_recordToJson hghead), ihf]
    · rw [show assignIds n (q :: qs) =
        normalizeElement n q :: assignIds (n + 1) qs from rfl]
      rw [List.map_cons]
      rw [show assignIds n (recordToJson (normalizeElement n q) ::
          (assignIds (n + 1) qs).map recordToJson) =
        normalizeElement n (recordToJson (normalizeElement n q)) ::
          assignIds (n + 1) ((assignIds (n + 1) qs).map recordToJson) from rfl]
      rw [renorm_element_full n q hghead, iha]

/-- C4 (amended): re-running the normalizer on the re-serialization of its
own output (an object whose `questions` field holds the emitted records)
reproduces the output exactly, provided every emitted record has non-empty
question and answer text and every emitted objective record has a non-empty
explanation; without that proviso the re-run can drop records (see the
counterexample). -/
theorem c4_idempotent (p : Json) (r : NormResult)
    (h : normalizeParsed p = .ok r)
    (hg : ∀ rec ∈ r.questions, goodRec rec = true) :
    normalizeParsed (reserialize r) = .ok r := by
  obtain ⟨elems, hq, hqs, htot, h5⟩ := normalizeParsed_ok_inv h
  have hp2 : reserialize r ≠ Json.null := by
    unfold reserialize jobj
    intro hx
    cases hx
  rw [normalizeParsed_eq _ hp2]
  rw [show jsGet (reserialize r) kQuestions =
    Json.arr (JArr.ofList (r.questions.map recordToJson)) from rfl]
  dsimp only
  rw [toList_ofList]
  have hglist : ∀ rec ∈ assignIds 0 (elems.toList.filter keepQ),
      goodRec rec = true := by
    rw [← hqs]; exact hg
  obtain ⟨hf, ha⟩ := renorm_list (elems.toList.filter keepQ) 0 hglist
  rw [hqs, hf, ha]
  rw [if_neg (by rw [hqs] at h5; omega)]
  cases r with
  | mk qs tot =>
    simp only at hqs htot
    rw [← hqs, ← htot]

def c4bad : Json := jobj
  [(kType, Json.str theoryTag), (kQuestion, Json.str (" ".data)),
   (kAnswer, Json.str ("a".data))]

def c4in : Json := jobj [(kQuestions, jarr
  [c4bad, mkTheoryEl ("a1".data) ("b1".data), mkTheoryEl ("a2".data) ("b2".data),
   mkTheoryEl ("a3".data) ("b3".data), mkTheoryEl ("a4".data) ("b4".data),
   mkTheoryEl ("a5".data) ("b5".data)])]

def c4res1 : NormResult :=
  ⟨[QRec.theory 1 [] ("a".data) [],
    QRec.theory 2 ("a1".data) ("b1".data) [], QRec.theory 3 ("a2".data) ("b2".data) [],
    QRec.theory 4 ("a3".data) ("b3".data) [], QRec.theory 5 ("a4".data) ("b4".data) [],
    QRec.theory 6 ("a5".data) ("b5".data) []], 6⟩

def c4res2 : NormResult :=
  ⟨[QRec.theory 1 ("a1".data) ("b1".data) [], QRec.theory 2 ("a2".data) ("b2".data) [],
    QRec.theory 3 ("a3".data) ("b3".data) [], QRec.theory 4 ("a4".data) ("b4".data) [],
    QRec.theory 5 ("a5".data) ("b5".data) []], 5⟩

/-- C4 counterexample: an element whose question text is a single space
passes the truthiness filter and is emitted with an empty (trimmed)
question; re-running the normalizer on the re-serialized output drops that
record (the empty string is falsy), so the second run returns five records
where the first returned six - normalization is not idempotent as claimed. -/
theorem c4_counterexample :
    normalizeParsed c4in = Except.ok c4res1 ∧
    normalizeParsed (reserialize c4res1) = Except.ok c4res2 ∧
    c4res2 ≠ c4res1 :=
  ⟨rfl, rfl, by decide⟩

theorem c4_witness :
    normalizeParsed w3 = Except.ok w3res ∧
    (∀ rec ∈ w3res.questions, goodRec rec = true) ∧
    normalizeParsed (reserialize w3res) = Except.ok w3res :=
  ⟨rfl, by decide, c4_idempotent w3 w3res rfl (by decide)⟩
